import Mathlib

/-!
# Verification of the BM25 retrieval core (`backend/core/rag.py`)

This file is a shallow embedding of the retrieval engine of the repository:
the tokenizer, the chunker, the corpus loader and the BM25 scorer of
`backend/core/rag.py`, together with the pieces of `backend/core/i18n.py`
(`normalize_lang`, `detect_language`) and `backend/core/utils.py`
(`normalize_ws`, `safe_read_text`) that they use.

Modelling conventions:
* Python strings are Lean `String`s; most computations happen on `List Char`
  (`String.data`), so `len` is the code-point count exactly as in Python.
* Python `dict`s keyed by strings are association lists (`List (String × _)`)
  that keep insertion order and never duplicate a key; `d.get(k, 0)` is
  `dictGet`, `d[k] = d.get(k, 0) + 1` is `dictIncr`.
* Python `float` arithmetic is modelled exactly: rational constants live in
  `ℚ`, and BM25 scores live in an arbitrary `LinearOrderedField` so the
  theorems cover both `ℚ` (executable witnesses) and `ℝ` (the idf values,
  which involve `math.log`, modelled as `Real.log`).  `math.log` itself is
  passed to the loader as an explicit function parameter `log : ℚ → K`.
* Filesystem reads and `json.loads` are external effects: a file is modelled
  by its read result (`Option String`, `none` = the read raises) and the JSON
  parser is an explicit parameter `String → Option PyJson`.
* Exceptions are modelled with `Except Unit`; the `try/except` blocks of the
  source catch locally, and anything uncaught propagates as `.error`.
* Unicode case folding is modelled on the ASCII and Latin-1 ranges, which are
  the ranges the tokenizer's character classes mention; characters outside
  these ranges are left unchanged.
-/

/-! ## Basic character predicates and Python string helpers -/

/-- Whitespace for Python's `str.strip` / `str.isspace` / regex `\s`,
restricted to the common code points: space, TAB, LF, VT, FF, CR, NEL, NBSP. -/
def isPyWs (c : Char) : Bool :=
  c.toNat = 32 || c.toNat = 9 || c.toNat = 10 || c.toNat = 11 || c.toNat = 12 ||
    c.toNat = 13 || c.toNat = 0x85 || c.toNat = 0xA0

/-- Python `str.lower`, restricted to ASCII and Latin-1 (`×` U+00D7 has no
lower case; `ß` U+00DF is its own lower case). -/
def pyLower (c : Char) : Char :=
  if 'A' ≤ c && c ≤ 'Z' then Char.ofNat (c.toNat + 32)
  else if 0xC0 ≤ c.toNat && c.toNat ≤ 0xDE && c.toNat != 0xD7 then Char.ofNat (c.toNat + 32)
  else c

/-- Python `str.upper`, restricted to ASCII and Latin-1. -/
def pyUpper (c : Char) : Char :=
  if 'a' ≤ c && c ≤ 'z' then Char.ofNat (c.toNat - 32)
  else if 0xE0 ≤ c.toNat && c.toNat ≤ 0xFE && c.toNat != 0xF7 then Char.ofNat (c.toNat - 32)
  else c

/-- Alphabetic test for Python `str.title`, restricted to ASCII/Latin-1. -/
def isPyAlpha (c : Char) : Bool :=
  ('a' ≤ c && c ≤ 'z') || ('A' ≤ c && c ≤ 'Z') ||
    (0xC0 ≤ c.toNat && c.toNat ≤ 0xFF && c.toNat != 0xD7 && c.toNat != 0xF7)

/-- Python `str.strip()`: drop leading and trailing whitespace. -/
def pyStrip (l : List Char) : List Char :=
  ((l.dropWhile isPyWs).reverse.dropWhile isPyWs).reverse

/-- Python `str.title()` on a character list (`prev` = previous char was
alphabetic): the first character of every alphabetic run is uppercased, the
rest lowercased. -/
def pyTitleAux : Bool → List Char → List Char
  | _, [] => []
  | prev, c :: cs => (if prev then pyLower c else pyUpper c) :: pyTitleAux (isPyAlpha c) cs

def pyTitle (s : String) : String := String.mk (pyTitleAux false s.data)

/-- `utils.normalize_ws` step 1, `re.sub(r"\s+", " ", text)`: every maximal
run of whitespace becomes a single space (`prevWs` = the previous character
was whitespace, i.e. we are inside a run that already emitted its space). -/
def collapseWsAux : Bool → List Char → List Char
  | _, [] => []
  | prevWs, c :: cs =>
    if isPyWs c then
      if prevWs then collapseWsAux true cs else ' ' :: collapseWsAux true cs
    else c :: collapseWsAux false cs

def collapseWs (l : List Char) : List Char := collapseWsAux false l

/-- `utils.normalize_ws`: `re.sub(r"\s+", " ", text).strip()`. -/
def normalize_ws (l : List Char) : List Char := pyStrip (collapseWs l)

/-- `utils.safe_read_text`: a read that raises returns the default `""`. -/
def safe_read_text (readResult : Option String) : String := readResult.getD ""

/-! ## Language handling (`backend/core/i18n.py`) -/

/-- The keys of `i18n.SUPPORTED_LANGS`. -/
def SUPPORTED_LANGS : List String := ["en", "zh", "ja", "fr", "pt", "es", "id"]

/-- The `aliases` table inside `i18n.normalize_lang` (`aliases.get(c, c)`). -/
def langAlias (c : String) : String :=
  match c with
  | "eng" => "en" | "english" => "en"
  | "cn" => "zh" | "zh-cn" => "zh" | "zh-hans" => "zh" | "mandarin" => "zh" | "chinese" => "zh"
  | "jp" => "ja" | "jpn" => "ja" | "japanese" => "ja"
  | "fra" => "fr" | "french" => "fr"
  | "por" => "pt" | "pt-br" => "pt" | "portuguese" => "pt"
  | "spa" => "es" | "spanish" => "es"
  | "indo" => "id" | "bahasa" => "id" | "indonesian" => "id"
  | other => other

/-- `i18n.normalize_lang` (`if not code: return None` also catches `""`). -/
def normalize_lang (code : Option String) : Option String :=
  match code with
  | none => none
  | some code =>
    if code = "" then none
    else
      let c := String.mk ((pyStrip code.data).map pyLower)
      let c := langAlias c
      if c ∈ SUPPORTED_LANGS then some c else none

/-- Hiragana U+3040–U+30FF / Katakana Phonetic Extensions U+31F0–U+31FF
(`_has_hiragana_katakana` in rag.py, `_contains_hiragana_katakana` in i18n.py). -/
def isKana (c : Char) : Bool :=
  (0x3040 ≤ c.toNat && c.toNat ≤ 0x30FF) || (0x31F0 ≤ c.toNat && c.toNat ≤ 0x31FF)

/-- CJK Unified Ideographs U+4E00–U+9FFF. -/
def isCJK (c : Char) : Bool := 0x4E00 ≤ c.toNat && c.toNat ≤ 0x9FFF

def hasKana (l : List Char) : Bool := l.any isKana

def hasCJK (l : List Char) : Bool := l.any isCJK

/-- The character class kept by the ideographic tokenizer path:
`[぀-ヿㇰ-ㇿ一-鿿]`. -/
def isIdeo (c : Char) : Bool := isKana c || isCJK c

/-- The character class of the Latin word regex `[A-Za-zÀ-ÖØ-öø-ÿ0-9']+`. -/
def isLatinWordChar (c : Char) : Bool :=
  ('A' ≤ c && c ≤ 'Z') || ('a' ≤ c && c ≤ 'z') || ('0' ≤ c && c ≤ '9') ||
    c.val = 39 ||
    (0xC0 ≤ c.toNat && c.toNat ≤ 0xD6) || (0xD8 ≤ c.toNat && c.toNat ≤ 0xF6) ||
    (0xF8 ≤ c.toNat && c.toNat ≤ 0xFF)

/-- The character class of the `i18n.detect_language` word regex
`[A-Za-zÀ-ÖØ-öø-ÿ']+` (no digits, unlike the tokenizer's class). -/
def isDetectWordChar (c : Char) : Bool :=
  ('A' ≤ c && c ≤ 'Z') || ('a' ≤ c && c ≤ 'z') || c.val = 39 ||
    (0xC0 ≤ c.toNat && c.toNat ≤ 0xD6) || (0xD8 ≤ c.toNat && c.toNat ≤ 0xF6) ||
    (0xF8 ≤ c.toNat && c.toNat ≤ 0xFF)

/-- `re.findall(r"[class]+", s)`: the maximal runs of characters satisfying
`p`, in order (`cur` is the reversed run currently being collected). -/
def charRunsAux (p : Char → Bool) (cur : List Char) : List Char → List (List Char)
  | [] => if cur = [] then [] else [cur.reverse]
  | c :: cs =>
    if p c then charRunsAux p (c :: cur) cs
    else if cur = [] then charRunsAux p [] cs
    else cur.reverse :: charRunsAux p [] cs

def charRuns (p : Char → Bool) (l : List Char) : List (List Char) := charRunsAux p [] l

/-- The per-language stopword seeds `i18n._STOPWORDS` used by
`detect_language` (insertion order preserved). -/
def I18N_STOPWORDS : List (String × List String) :=
  [("en", ["the", "and", "is", "are", "what", "how", "why", "can", "do", "with", "from"]),
   ("id", ["yang", "dan", "atau", "itu", "ini", "apa", "bagaimana", "kenapa", "bisa", "dengan", "dari"]),
   ("es", ["el", "la", "y", "o", "que", "cómo", "por", "para", "con", "desde"]),
   ("fr", ["le", "la", "et", "ou", "que", "comment", "pour", "avec", "depuis"]),
   ("pt", ["o", "a", "e", "ou", "que", "como", "por", "para", "com", "desde"])]

/-- `max(scores.items(), key=lambda kv: kv[1])`: Python's `max` returns the
first item attaining the maximum, which the fold with a strict `>` preserves
(the accumulator starts at `("en", 0)`, the first item of the table, whose
score can only be confirmed, never displaced, by an equal score). -/
def firstMaxByVal (l : List (String × Nat)) : String × Nat :=
  l.foldl (fun a b => if b.2 > a.2 then b else a) ("en", 0)

/-- `i18n.detect_language`, with the float confidence arithmetic carried out
exactly in `ℚ`.  Returns `(lang_code, confidence)`. -/
def detect_language (text : String) : String × ℚ :=
  let t := pyStrip text.data
  if t = [] then ("en", 1/10)
  else if hasKana t then ("ja", 95/100)
  else if hasCJK t then ("zh", 85/100)
  else
    let words := (charRuns isDetectWordChar (t.map pyLower)).map String.mk
    if words = [] then ("en", 2/10)
    else
      let scores := I18N_STOPWORDS.map
        (fun p => (p.1, ((words.take 120).filter (fun w => w ∈ p.2)).length))
      let best := firstMaxByVal scores
      let total : Nat := (scores.map (·.2)).sum
      if best.2 = 0 then ("en", 35/100)
      else
        let conf : ℚ := min (9/10) (45/100 + ((best.2 : ℚ) / (max 1 words.length : ℚ)) * 4)
        let conf := if 0 < total ∧ (best.2 : ℚ) / (total : ℚ) < 4/10 then min conf (6/10) else conf
        (best.1, conf)

/-! ## Tokenizer (`rag.tokenize`) -/

/-- `rag.STOPWORDS_BY_LANG` as a total function;
`STOPWORDS_BY_LANG.get(key, STOPWORDS_BY_LANG["en"])` means any key without
an entry (including `"zh"`/`"ja"`) falls back to the English set. -/
def STOPWORDS_BY_LANG (lang : String) : List String :=
  match lang with
  | "id" => ["yang", "dan", "atau", "tapi", "jika", "maka", "ketika", "sementara",
             "untuk", "ke", "dari", "di", "pada", "oleh", "dengan", "sebagai", "adalah",
             "ini", "itu", "tersebut", "saya", "aku", "kamu", "anda", "kita", "kami", "mereka"]
  | "es" => ["el", "la", "los", "las", "y", "o", "pero", "si", "entonces", "cuando",
             "mientras", "para", "de", "en", "con", "como", "es", "son", "soy"]
  | "fr" => ["le", "la", "les", "et", "ou", "mais", "si", "donc", "quand", "pendant",
             "pour", "de", "en", "avec", "comme", "est", "sont", "je", "tu", "nous", "vous"]
  | "pt" => ["o", "a", "os", "as", "e", "ou", "mas", "se", "então", "quando", "enquanto",
             "para", "de", "em", "com", "como", "é", "são", "eu", "você", "nós"]
  | _ => ["a", "an", "the", "and", "or", "but", "if", "then", "else", "when", "while",
          "for", "to", "of", "in", "on", "at", "by", "with", "as", "is", "are", "was",
          "were", "be", "been", "this", "that", "these", "those", "it", "its", "you",
          "your", "i", "me", "my", "we", "our", "they", "them", "from", "into", "over",
          "under", "about", "above", "below", "up", "down", "out", "off"]

/-- The "very light normalization for English plural" of `tokenize`:
`ies` (length > 4) → stem + `y`; else a trailing `s` (length > 3) is dropped. -/
def lightStem (w : String) : String :=
  let l := w.data
  if ['i', 'e', 's'].isSuffixOf l && l.length > 4 then String.mk (l.take (l.length - 3) ++ ['y'])
  else if ['s'].isSuffixOf l && l.length > 3 then String.mk (l.dropLast)
  else w

/-- The body of the Latin-path `for w in words:` loop of `tokenize`:
skip length ≤ 1, skip stopwords, then stem and append. -/
def latinFilterStem (sw : List String) : List String → List String
  | [] => []
  | w :: ws =>
    if w.length ≤ 1 then latinFilterStem sw ws
    else if w ∈ sw then latinFilterStem sw ws
    else lightStem w :: latinFilterStem sw ws

/-- Python `chars[::3]`: every third element, indices 0, 3, 6, … -/
def everyThird : List Char → List Char
  | [] => []
  | [c] => [c]
  | [c, _] => [c]
  | c :: _ :: _ :: rest => c :: everyThird rest

/-- The bigram list `[chars[i] + chars[i+1] for i in range(len(chars) - 1)]`,
written with explicit indexing as in the source (`d` is the out-of-range
default, never reached). -/
def cjkBigrams (chars : List Char) : List String :=
  (List.range (chars.length - 1)).map
    (fun i => String.mk [chars.getD i ' ', chars.getD (i + 1) ' '])

/-- `rag.tokenize(text, lang_hint)`. -/
def tokenize (text : String) (lang_hint : Option String) : List String :=
  let t := pyStrip text.data
  if t = [] then []
  else
    let lang := normalize_lang lang_hint
    if lang = some "zh" || lang = some "ja" || hasKana t || hasCJK t then
      -- ideographic path: keep only CJK + kana characters
      let chars := t.filter isIdeo
      if chars.length < 2 then chars.map (fun c => String.mk [c])
      else cjkBigrams chars ++ (everyThird chars).map (fun c => String.mk [c])
    else
      -- Latin-ish tokenization (keeps accents): findall on `t.lower()`
      let words := (charRuns isLatinWordChar (t.map pyLower)).map String.mk
      if words = [] then []
      else
        let sw := STOPWORDS_BY_LANG (lang.getD "en")
        latinFilterStem sw words

/-! ## Chunker (`rag.chunk_text`) -/

/-- The part of a whitespace run preceding its first `'\n'`. -/
def beforeFirstNl (l : List Char) : List Char := l.takeWhile (fun c => c ≠ '\n')

/-- The part of a whitespace run following its last `'\n'`. -/
def afterLastNl (l : List Char) : List Char :=
  (l.reverse.takeWhile (fun c => c ≠ '\n')).reverse

/-- `re.split(r"\n\s*\n", text)`.  A separator match runs from the first
`'\n'` of a maximal whitespace run to the last `'\n'` of that run (the
greedy `\s*` backtracks just enough to leave a final `\n`), so a maximal
whitespace run splits the text exactly when it contains at least two
newlines; the run's characters before its first newline stay with the left
piece and those after its last newline start the right piece.  `acc` is the
piece being built, `wsbuf` the whitespace run being scanned. -/
def splitBlocksGo (acc wsbuf : List Char) : List Char → List (List Char)
  | [] =>
    if 2 ≤ wsbuf.count '\n' then [acc ++ beforeFirstNl wsbuf, afterLastNl wsbuf]
    else [acc ++ wsbuf]
  | c :: cs =>
    if isPyWs c then splitBlocksGo acc (wsbuf ++ [c]) cs
    else if 2 ≤ wsbuf.count '\n' then
      (acc ++ beforeFirstNl wsbuf) :: splitBlocksGo (afterLastNl wsbuf ++ [c]) [] cs
    else splitBlocksGo (acc ++ wsbuf ++ [c]) [] cs

/-- `raw_blocks = re.split(r"\n\s*\n", (text or "").strip())`. -/
def rawBlocks (text : String) : List (List Char) :=
  splitBlocksGo [] [] (pyStrip text.data)

/-- One step of the greedy block-accumulation loop of `chunk_text`.
The accumulator is `(chunks, buf)`. -/
def chunkStep (maxChars : Nat) (st : List (List Char) × List Char) (block : List Char) :
    List (List Char) × List Char :=
  let (chunks, buf) := st
  let b := pyStrip block
  if b = [] then (chunks, buf)
  else if buf.length + b.length + 2 ≤ maxChars then
    (chunks, pyStrip (buf ++ ['\n', '\n'] ++ b))
  else if buf ≠ [] then (chunks ++ [buf], b)
  else (chunks, b)

/-- `rag.chunk_text(text, max_chars)` (the source's default is
`max_chars = 850`; callers inside the loader use that default). -/
def chunk_text (text : String) (maxChars : Nat) : List String :=
  let st := (rawBlocks text).foldl (chunkStep maxChars) ([], [])
  let chunks := if st.2 ≠ [] then st.1 ++ [st.2] else st.1
  ((chunks.filter (fun c => pyStrip c ≠ [])).map
    (fun c => String.mk (normalize_ws (c.map (fun ch => if ch = '\n' then ' ' else ch)))))

/-! ## String-keyed dictionaries (Python `dict`) -/

/-- Lookup in an insertion-ordered association list (`d.get(k)`). -/
def dictLookup {α : Type} (d : List (String × α)) (k : String) : Option α :=
  match d with
  | [] => none
  | (k', v) :: rest => if k' = k then some v else dictLookup rest k

/-- `d.get(k, 0)`. -/
def dictGet (d : List (String × Nat)) (k : String) : Nat := (dictLookup d k).getD 0

/-- `d[k] = d.get(k, 0) + 1`: update in place, or append a fresh key
(Python dicts keep insertion order). -/
def dictIncr (d : List (String × Nat)) (k : String) : List (String × Nat) :=
  match d with
  | [] => [(k, 1)]
  | (k', v) :: rest => if k' = k then (k', v + 1) :: rest else (k', v) :: dictIncr rest k

/-- The `tf` loop: `for t in toks: tf[t] = tf.get(t, 0) + 1`. -/
def buildTf (toks : List String) : List (String × Nat) := toks.foldl dictIncr []

/-! ## Data model (`rag.KBChunk`, `rag.KnowledgeBase`) -/

structure KBChunk where
  chunk_id : String
  title : String
  source_file : String
  lang : String
  text : String
  tokens : List String
  tf : List (String × Nat)
deriving Repr, DecidableEq, Inhabited

/-- A JSON value as seen by `_load_jsonl_pack` after `json.loads` succeeds:
either a JSON object (with the three `str()`-converted fields the loader
reads, `none` when the key is absent) or any non-object value, on which
`obj.get(...)` raises `AttributeError`. -/
inductive PyJson where
  | jdict (text : Option String) (lang : Option String) (title : Option String)
  | jother
deriving Repr, DecidableEq

/-- A `*.md` file of `kb_dir`, as enumerated by `sorted(kb_dir.glob("*.md"))`
(the list is given in that sorted order).  `read = none` models a read that
raises, which `safe_read_text` turns into `""`. -/
structure MdFile where
  stem : String
  read : Option String
deriving Repr, DecidableEq

/-- A `*.jsonl` file of `packs_processed_dir`, in sorted order.
`read = none` models `fp.read_text` raising, which `_load_jsonl_pack`
swallows (`return`). -/
structure PackFile where
  stem : String
  read : Option String
deriving Repr, DecidableEq

/-- The sources a `KnowledgeBase` is configured with: `packs = none` models
`packs_processed_dir` being unset or non-existent. -/
structure KBConfig where
  mdFiles : List MdFile
  packs : Option (List PackFile)
deriving Repr, DecidableEq

/-- The mutable index state of a `KnowledgeBase` (`self.chunks`, `self.df`,
`self.idf`, `self.avgdl`, `self._is_ready`).  Scores and idf values live in
an arbitrary linear ordered field `K` (exact model of the float/`math.log`
arithmetic); `avgdl` is an exact rational. -/
structure KBState (K : Type) where
  chunks : List KBChunk
  df : List (String × Nat)
  idf : List (String × K)
  avgdl : ℚ
  isReady : Bool

/-- The state a fresh `KnowledgeBase.__init__` leaves behind. -/
def initState (K : Type) : KBState K := ⟨[], [], [], 0, false⟩

/-! ## Corpus loader (`KnowledgeBase.load`, `_load_jsonl_pack`) -/

/-- The shared shape of the two indexing loops
(`for idx, ch in enumerate(chunk_text(text)): ...` in `load` and in
`_load_jsonl_pack`, which are verbatim copies of each other): tokenize the
chunk, skip it if tokenization is empty, otherwise build `tf`, bump `df`
once per distinct token (`for t in set(toks)`, modelled by `dedup`), and
append the new `KBChunk` (built by `mk` from the position and text of the
chunk, its tokens and its `tf`). -/
def indexStep (lang : String) (mk : Nat → String → List String → List (String × Nat) → KBChunk)
    (st : List KBChunk × List (String × Nat)) (item : Nat × String) :
    List KBChunk × List (String × Nat) :=
  let (chunks, df) := st
  let (idx, ch) := item
  let toks := tokenize ch (some lang)
  if toks = [] then (chunks, df)
  else
    let tf := buildTf toks
    let df := (toks.dedup).foldl dictIncr df
    (chunks ++ [mk idx ch toks tf], df)

/-- The `# 1) Markdown docs` loop body of `load`, for one file. -/
def loadMdFile (st : List KBChunk × List (String × Nat)) (fp : MdFile) :
    List KBChunk × List (String × Nat) :=
  let text := safe_read_text fp.read
  if pyStrip text.data = [] then st
  else
    let guess := detect_language text
    let lang := if guess.2 ≥ 6/10 then guess.1 else "en"
    let title := pyTitle (String.mk (fp.stem.data.map (fun c => if c = '_' then ' ' else c)))
    let fname := fp.stem ++ ".md"
    (chunk_text text 850).enum.foldl
      (indexStep lang (fun idx ch toks tf =>
        ⟨"md:" ++ fp.stem ++ ":" ++ toString idx, title, fname, lang, ch, toks, tf⟩)) st

/-- `KnowledgeBase._load_jsonl_pack`, one line of the pack
(`line` is already the raw line; `jp` is the external `json.loads`:
`none` = parsing raised, swallowed by the `except: continue`;
`jother` = a non-dict JSON value, on which `obj.get` raises). -/
def loadPackLine (jp : String → Option PyJson) (fpStem : String)
    (st : List KBChunk × List (String × Nat)) (item : Nat × List Char) :
    Except Unit (List KBChunk × List (String × Nat)) :=
  let (line_no, rawLine) := item
  let line := pyStrip rawLine
  if line = [] then .ok st
  else
    match jp (String.mk line) with
    | none => .ok st
    | some .jother => .error ()
    | some (.jdict jtext jlang jtitle) =>
      let text := String.mk (pyStrip (jtext.getD "").data)
      if text = "" then .ok st
      else
        let lang := (normalize_lang (some (jlang.getD ""))).getD "en"
        let title0 := String.mk (pyStrip (jtitle.getD "Knowledge Pack").data)
        let title := if title0 = "" then "Knowledge Pack" else title0
        let source_file := fpStem ++ ".jsonl"
        .ok ((chunk_text text 850).enum.foldl
          (indexStep lang (fun idx ch toks tf =>
            ⟨"pack:" ++ fpStem ++ ":" ++ toString line_no ++ ":" ++ toString idx,
             title, source_file, lang, ch, toks, tf⟩)) st)

/-- Python `str.splitlines()` restricted to the `\n` / `\r` / `\r\n`
boundaries (no trailing empty line for a trailing terminator). -/
def splitLinesGo (acc : List Char) : List Char → List (List Char)
  | [] => [acc.reverse]
  | '\r' :: '\n' :: cs => acc.reverse :: (if cs = [] then [] else splitLinesGo [] cs)
  | '\r' :: cs => acc.reverse :: (if cs = [] then [] else splitLinesGo [] cs)
  | '\n' :: cs => acc.reverse :: (if cs = [] then [] else splitLinesGo [] cs)
  | c :: cs => splitLinesGo (c :: acc) cs

def splitLines (l : List Char) : List (List Char) :=
  if l = [] then [] else splitLinesGo [] l

/-- `KnowledgeBase._load_jsonl_pack`, one file. -/
def loadPackFile (jp : String → Option PyJson)
    (st : List KBChunk × List (String × Nat)) (fp : PackFile) :
    Except Unit (List KBChunk × List (String × Nat)) :=
  match fp.read with
  | none => .ok st
  | some raw => (splitLines raw.data).enum.foldlM (loadPackLine jp fp.stem) st

/-- The chunk/df-building part of `KnowledgeBase.load` (everything before
the `# BM25 stats` section): markdown docs first, then the processed packs. -/
def loadChunksDf (jp : String → Option PyJson) (cfg : KBConfig) :
    Except Unit (List KBChunk × List (String × Nat)) :=
  let st0 := cfg.mdFiles.foldl loadMdFile ([], [])
  match cfg.packs with
  | none => .ok st0
  | some packFiles => packFiles.foldlM (loadPackFile jp) st0

/-- The `# IDF` section of `load`:
`idf[term] = math.log(1 + (n_docs - dfi + 0.5) / (dfi + 0.5))`, with
`math.log` the external transcendental function `log : ℚ → K` applied to the
exactly-computed rational argument. -/
def mkIdf {K : Type} (log : ℚ → K) (n_docs : Nat) (df : List (String × Nat)) :
    List (String × K) :=
  df.map (fun p => (p.1, log (1 + ((n_docs : ℚ) - (p.2 : ℚ) + 1/2) / ((p.2 : ℚ) + 1/2))))

/-- `KnowledgeBase.load` (the `kb_dir.mkdir` filesystem side effect is not
modelled).  On success the new state replaces the old wholesale. -/
def KnowledgeBase.load {K : Type} (log : ℚ → K) (jp : String → Option PyJson)
    (cfg : KBConfig) : Except Unit (KBState K) :=
  match loadChunksDf jp cfg with
  | .error e => .error e
  | .ok (chunks, df) =>
    let n_docs : Nat := max 1 chunks.length
    let total_len : Nat := (chunks.map (fun c => c.tokens.length)).sum
    let avgdl : ℚ := max 1 ((total_len : ℚ) / (n_docs : ℚ))
    .ok ⟨chunks, df, mkIdf log n_docs df, avgdl, true⟩

/-! ## Scorer (`KnowledgeBase._bm25_score`, `KnowledgeBase.search`) -/

/-- `KnowledgeBase._bm25_score(q_tokens, doc, k1=1.4, b=0.75)`; `search`
always calls it with the default constants.  Exact model of the float
arithmetic over any linear ordered field. -/
def KnowledgeBase.bm25_score {K : Type} [LinearOrderedField K]
    (idf : List (String × K)) (avgdl : ℚ) (q_tokens : List String) (doc : KBChunk) : K :=
  if avgdl ≤ 0 then 0
  else
    let k1 : K := 14/10
    let b : K := 3/4
    let dl : Nat := max 1 doc.tokens.length
    q_tokens.foldl (fun score t =>
      let tf := dictGet doc.tf t
      if tf = 0 then score
      else
        let idfv := (dictLookup idf t).getD 0
        score + idfv * ((tf : K) * (k1 + 1)) / ((tf : K) + k1 * (1 - b + b * ((dl : K) / ((avgdl : ℚ) : K))))) 0

/-- The relation Python's stable `scores.sort(key=lambda x: x[1],
reverse=True)` sorts the `(index, score)` pairs into: score descending, and
— because the input is built in index order and the sort is stable — ties
broken by ascending index.  On a list with pairwise-distinct indices the
stable descending sort is exactly the (unique) sort by this total order. -/
def pairLE {K : Type} [LinearOrderedField K] (a b : Nat × K) : Prop :=
  b.2 < a.2 ∨ (a.2 = b.2 ∧ a.1 ≤ b.1)

instance {K : Type} [LinearOrderedField K] : DecidableRel (pairLE (K := K)) := fun a b => by
  unfold pairLE; infer_instance

instance {K : Type} [LinearOrderedField K] : IsTotal (Nat × K) pairLE where
  total a b := by
    rcases lt_trichotomy a.2 b.2 with h | h | h
    · exact .inr (.inl h)
    · rcases Nat.le_total a.1 b.1 with h' | h'
      · exact .inl (.inr ⟨h, h'⟩)
      · exact .inr (.inr ⟨h.symm, h'⟩)
    · exact .inl (.inl h)

instance {K : Type} [LinearOrderedField K] : IsTrans (Nat × K) pairLE where
  trans a b c hab hbc := by
    rcases hab with h1 | ⟨e1, i1⟩ <;> rcases hbc with h2 | ⟨e2, i2⟩
    · exact .inl (h2.trans h1)
    · exact .inl (e2 ▸ h1)
    · exact .inl (e1.symm ▸ h2)
    · exact .inr ⟨e1.trans e2, i1.trans i2⟩

/-- The `scores` list of `search`: `(i, score)` for every chunk whose score
is `> 0`, in index order. -/
def KnowledgeBase.scoresList {K : Type} [LinearOrderedField K]
    (st : KBState K) (q_tokens : List String) : List (Nat × K) :=
  (st.chunks.enum.map (fun p => (p.1, KnowledgeBase.bm25_score st.idf st.avgdl q_tokens p.2))).filter
    (fun p => 0 < p.2)

/-- The sorted, truncated index/score list of `search`:
`scores.sort(key=..., reverse=True)` then `scores[: max(1, k)]`. -/
def KnowledgeBase.searchIndexed {K : Type} [LinearOrderedField K]
    (st : KBState K) (q_tokens : List String) (k : ℤ) : List (Nat × K) :=
  ((KnowledgeBase.scoresList st q_tokens).insertionSort pairLE).take (max 1 k).toNat

/-- The body of `KnowledgeBase.search` after the lazy-load check
(`float(s)` is the identity in the exact model). -/
def KnowledgeBase.searchReady {K : Type} [LinearOrderedField K]
    (st : KBState K) (query : String) (k : ℤ) (lang_hint : Option String) :
    List (KBChunk × K) :=
  let q_tokens := tokenize query lang_hint
  if q_tokens = [] then []
  else (KnowledgeBase.searchIndexed st q_tokens k).map
    (fun p => (st.chunks.getD p.1 default, p.2))

/-- `KnowledgeBase.search(query, k, lang_hint)`: lazy-load when the index is
not ready (which can propagate the loader's uncaught exception), then score.
Returns the (possibly re-loaded) state together with the results. -/
def KnowledgeBase.search {K : Type} [LinearOrderedField K] (log : ℚ → K)
    (jp : String → Option PyJson) (cfg : KBConfig) (st : KBState K)
    (query : String) (k : ℤ) (lang_hint : Option String) :
    Except Unit (KBState K × List (KBChunk × K)) :=
  match (if st.isReady then .ok st else KnowledgeBase.load log jp cfg : Except Unit (KBState K)) with
  | .error e => .error e
  | .ok st' => .ok (st', KnowledgeBase.searchReady st' query k lang_hint)


/-- A fully whitespace-normalized character list (the shape `normalize_ws`
produces): every whitespace character is a plain space, no two adjacent
whitespace characters, and no leading or trailing whitespace. -/
def wsNormalized (l : List Char) : Prop :=
  (∀ c ∈ l, isPyWs c = true → c = ' ') ∧
  l.Chain' (fun a b => ¬(isPyWs a = true ∧ isPyWs b = true)) ∧
  (∀ h, l.head? = some h → isPyWs h = false) ∧
  (∀ h, l.getLast? = some h → isPyWs h = false)

/-- The bound the chunker guarantees for an accumulated buffer or emitted
chunk: within `maxChars`, or literally a single (trimmed) source block from
`S` that is itself oversized. -/
def ChunkOk (maxChars : Nat) (S : List (List Char)) (x : List Char) : Prop :=
  x.length ≤ maxChars ∨ ∃ block ∈ S, pyStrip block = x ∧ maxChars < x.length

/-! ## Concrete fixtures used by the witness theorems -/

/-- A one-file markdown corpus whose only document is `"aaaa"`. -/
def cfgA : KBConfig := ⟨[⟨"a", some "aaaa"⟩], none⟩

/-- A JSON parser that never succeeds (no pack is consulted anyway). -/
def jpNone : String → Option PyJson := fun _ => none

/-- A stand-in for `math.log` over `ℚ` used where the idf values are
irrelevant. -/
def zeroLog : ℚ → ℚ := fun _ => 0

/-- The chunk `load` builds from `cfgA`. -/
def chunkA : KBChunk := ⟨"md:a:0", "A", "a.md", "en", "aaaa", ["aaaa"], [("aaaa", 1)]⟩

/-- The state `load zeroLog jpNone cfgA` produces. -/
def stA : KBState ℚ := ⟨[chunkA], [("aaaa", 1)], [("aaaa", 0)], 1, true⟩

/-- A hand-built two-chunk ready state used by the search witnesses. -/
def stW : KBState ℚ :=
  ⟨[⟨"c0", "t", "f", "en", "hello world", ["hello", "world"], [("hello", 1), ("world", 1)]⟩,
    ⟨"c1", "t", "f", "en", "hello hello", ["hello", "hello"], [("hello", 2)]⟩],
   [("hello", 2), ("world", 1)], [("hello", 1/2), ("world", 2)], 2, true⟩

/-- Number of chunks whose token sequence contains `t` at least once. -/
def countC (chunks : List KBChunk) (t : String) : Nat :=
  (chunks.filter (fun c => t ∈ c.tokens)).length

/-- The invariant the loader maintains on its `(chunks, df)` accumulator:
`df` holds exactly the terms of `chunks` with their document counts, and
every indexed chunk has a nonempty token sequence. -/
def DfInv (p : List KBChunk × List (String × Nat)) : Prop :=
  (∀ t, dictGet p.2 t = countC p.1 t) ∧
  (∀ t, (dictLookup p.2 t).isSome ↔ 0 < countC p.1 t) ∧
  (∀ c ∈ p.1, c.tokens ≠ [])

/- Batteries marks the `Rat` field operations `@[irreducible]`; concrete
witness computations need them to reduce definitionally. -/
attribute [local semireducible] Rat.mul Rat.inv Rat.add Rat.sub Rat.ofScientific

/-! ## General helper lemmas -/

/-- Folding the scoring loop with a skip-on-zero-tf guard equals summing the
per-token terms, provided the skipped terms are zero anyway. -/
theorem foldl_score_eq_sum {K : Type} [LinearOrderedField K] (tfFn : String → Nat)
    (f : String → K) (hf : ∀ t, tfFn t = 0 → f t = 0) :
    ∀ (l : List String) (a : K),
      l.foldl (fun score t => if tfFn t = 0 then score else score + f t) a = a + (l.map f).sum
  | [], a => by simp
  | t :: ts, a => by
    simp only [List.foldl_cons, List.map_cons, List.sum_cons]
    rcases Nat.eq_zero_or_pos (tfFn t) with h0 | hpos
    · rw [if_pos h0, foldl_score_eq_sum tfFn f hf ts a, hf t h0]
      ring
    · rw [if_neg (by omega), foldl_score_eq_sum tfFn f hf ts (a + f t)]
      ring

theorem bm25_score_nil {K : Type} [LinearOrderedField K] (idf : List (String × K))
    (avgdl : ℚ) (doc : KBChunk) : KnowledgeBase.bm25_score idf avgdl [] doc = 0 := by
  unfold KnowledgeBase.bm25_score
  split <;> simp

/-! ## C9: a JSONL line parsing to a non-dict JSON value crashes `load` -/

/-- **C9** (code bug, failing input). The spec and the claim say `load` never
propagates an exception.  But `json.loads("[]")` succeeds with a list, and the
following `obj.get("text", "")` raises an uncaught `AttributeError`: a pack
file whose content is the single line `[]` makes `load` raise to the caller.
Here the external parser maps `"[]"` to the non-dict value `PyJson.jother`
and `load` evaluates to `.error` instead of returning an index. -/
theorem C9_load_raises_on_nondict_json :
    KnowledgeBase.load (K := ℚ) (fun _ => 0)
      (fun s => if s = "[]" then some PyJson.jother else none)
      ⟨[], some [⟨"p", some "[]"⟩]⟩ = .error () := by
  rfl

/-! ## C10: lazy load on first search; searches never mutate a ready index -/

/-- **C10**. If the index is not ready, `search` performs the (single) load
and scores against the loaded state, and any successfully loaded state has
its ready flag set (so no later `search` can trigger another load); if the
index is ready, `search` returns the state unchanged (chunks, df, idf,
avgdl and the ready flag are all untouched) together with the scores
computed on it. -/
theorem C10_search_lazy_load {K : Type} [LinearOrderedField K] (log : ℚ → K)
    (jp : String → Option PyJson) (cfg : KBConfig) (st : KBState K)
    (query : String) (k : ℤ) (lang_hint : Option String) :
    (st.isReady = true →
      KnowledgeBase.search log jp cfg st query k lang_hint =
        .ok (st, KnowledgeBase.searchReady st query k lang_hint)) ∧
    (st.isReady = false →
      KnowledgeBase.search log jp cfg st query k lang_hint =
        (KnowledgeBase.load log jp cfg).map
          (fun st' => (st', KnowledgeBase.searchReady st' query k lang_hint))) ∧
    (∀ st' : KBState K, KnowledgeBase.load log jp cfg = .ok st' → st'.isReady = true) := by
  refine ⟨fun h => ?_, fun h => ?_, fun st' h => ?_⟩
  · simp only [KnowledgeBase.search, h, if_true]
  · simp only [KnowledgeBase.search, h, if_false]
    cases KnowledgeBase.load log jp cfg <;> rfl
  · unfold KnowledgeBase.load at h
    rcases hc : loadChunksDf jp cfg with e | p
    · rw [hc] at h; cases h
    · rw [hc] at h
      obtain ⟨chunks, df⟩ := p
      simp only [Except.ok.injEq] at h
      rw [← h]

/-- Witness for C10: a ready state is passed through untouched, an unready
state triggers the load, and the loaded state is ready. -/
theorem C10_search_lazy_load_witness :
    KnowledgeBase.search (K := ℚ) zeroLog jpNone cfgA stA "q" 4 none =
      .ok (stA, KnowledgeBase.searchReady stA "q" 4 none) ∧
    KnowledgeBase.search (K := ℚ) zeroLog jpNone cfgA (initState ℚ) "q" 4 none =
      (KnowledgeBase.load (K := ℚ) zeroLog jpNone cfgA).map
        (fun st' => (st', KnowledgeBase.searchReady st' "q" 4 none)) ∧
    stA.isReady = true :=
  ⟨(C10_search_lazy_load (K := ℚ) zeroLog jpNone cfgA stA "q" 4 none).1 rfl,
   (C10_search_lazy_load (K := ℚ) zeroLog jpNone cfgA (initState ℚ) "q" 4 none).2.1 rfl,
   (C10_search_lazy_load (K := ℚ) zeroLog jpNone cfgA stA "q" 4 none).2.2 stA (by rfl)⟩

/-! ## C2: the per-chunk score is the BM25 sum -/

/-- **C2**. On a built index (`avgdl > 0`; every built index has
`avgdl ≥ 1`), the per-chunk score is exactly
`Σ_t idf[t] * (tf * (k1+1)) / (tf + k1 * (1 - b + b * dl/avgdl))` over the
query tokens with multiplicity, with `k1 = 1.4`, `b = 0.75` and
`dl = max 1 (length of the chunk's tokens)`; a token absent from the idf
table contributes `idf[t] = 0`, and a token with `tf = 0` contributes a zero
term (its numerator vanishes). -/
theorem C2_bm25_score_formula {K : Type} [LinearOrderedField K]
    (idf : List (String × K)) (avgdl : ℚ) (q_tokens : List String) (doc : KBChunk)
    (h : 0 < avgdl) :
    KnowledgeBase.bm25_score idf avgdl q_tokens doc =
      (q_tokens.map (fun t =>
        ((dictLookup idf t).getD 0) *
          ((dictGet doc.tf t : K) * (14/10 + 1)) /
          ((dictGet doc.tf t : K) +
            (14/10) * (1 - 3/4 + (3/4) * (((max 1 doc.tokens.length : ℕ) : K) / ((avgdl : ℚ) : K)))))).sum := by
  unfold KnowledgeBase.bm25_score
  rw [if_neg (not_le.mpr h)]
  dsimp only
  rw [foldl_score_eq_sum (dictGet doc.tf)
    (fun t => ((dictLookup idf t).getD 0) *
      ((dictGet doc.tf t : K) * (14/10 + 1)) /
      ((dictGet doc.tf t : K) +
        (14/10) * (1 - 3/4 + (3/4) * (((max 1 doc.tokens.length : ℕ) : K) / ((avgdl : ℚ) : K)))))
    (fun t ht => by simp only [ht, Nat.cast_zero, zero_mul, mul_zero, zero_div])]
  exact zero_add _

/-- Witness for C2: a concrete two-token query against a concrete chunk. -/
theorem C2_bm25_score_formula_witness :
    (0 : ℚ) < 2 ∧
    KnowledgeBase.bm25_score (K := ℚ) [("hello", 1/2), ("world", 2)] 2 ["hello", "world"]
        ⟨"c0", "t", "f", "en", "hello world", ["hello", "world"], [("hello", 1), ("world", 1)]⟩ =
      ((["hello", "world"] : List String).map (fun t =>
        ((dictLookup [("hello", (1 : ℚ)/2), ("world", 2)] t).getD 0) *
          ((dictGet [("hello", 1), ("world", 1)] t : ℚ) * (14/10 + 1)) /
          ((dictGet [("hello", 1), ("world", 1)] t : ℚ) +
            (14/10) * (1 - 3/4 + (3/4) * (((max 1 (["hello", "world"] : List String).length : ℕ) : ℚ) / (((2 : ℚ) : ℚ))))))).sum :=
  ⟨by norm_num,
   C2_bm25_score_formula (K := ℚ) [("hello", 1/2), ("world", 2)] 2 ["hello", "world"]
     ⟨"c0", "t", "f", "en", "hello world", ["hello", "world"], [("hello", 1), ("world", 1)]⟩
     (by norm_num)⟩

/-! ## C1: search result shape, positivity, ordering, length bound -/

theorem mem_enumFrom_fst {α : Type} : ∀ {l : List α} {n : Nat} {p : Nat × α},
    p ∈ l.enumFrom n → n ≤ p.1 ∧ p.1 < n + l.length
  | [], _, _, h => by simp at h
  | a :: as, n, p, h => by
    rw [List.enumFrom_cons, List.mem_cons] at h
    rcases h with h | h
    · subst h; simp
    · have := mem_enumFrom_fst h
      simp only [List.length_cons]
      omega

theorem scoresList_pairwise_fst {K : Type} [LinearOrderedField K] (st : KBState K)
    (q : List String) :
    (KnowledgeBase.scoresList st q).Pairwise (fun a b => a.1 ≠ b.1) := by
  unfold KnowledgeBase.scoresList
  apply List.Pairwise.filter
  rw [List.pairwise_map]
  have h := List.nodup_enum_map_fst st.chunks
  rw [List.Nodup, List.pairwise_map] at h
  exact h

theorem scoresList_mem {K : Type} [LinearOrderedField K] {st : KBState K}
    {q : List String} {p : Nat × K} (hp : p ∈ KnowledgeBase.scoresList st q) :
    0 < p.2 ∧ p.1 < st.chunks.length := by
  unfold KnowledgeBase.scoresList at hp
  rw [List.mem_filter] at hp
  refine ⟨by simpa using hp.2, ?_⟩
  rcases List.mem_map.mp hp.1 with ⟨q', hq', rfl⟩
  have := mem_enumFrom_fst (l := st.chunks) (n := 0) (p := q') (by simpa [List.enum] using hq')
  omega

theorem scoresList_nil {K : Type} [LinearOrderedField K] (st : KBState K) :
    KnowledgeBase.scoresList st [] = [] := by
  unfold KnowledgeBase.scoresList
  rw [List.filter_eq_nil_iff]
  intro p hp
  rcases List.mem_map.mp hp with ⟨q', _, rfl⟩
  simp [bm25_score_nil]

/-- **C1**. For every index state, every query, every `k` and every language
hint: an empty tokenization gives the empty result; the results are exactly
the (index, score) pairs of `searchIndexed` resolved against the chunk list;
every returned pair has score `> 0` and a valid chunk position; the pairs
are sorted by score descending with ties broken by ascending original
position; and the result length is at most `max 1 (min k (corpus size))`. -/
theorem C1_search_results {K : Type} [LinearOrderedField K] (st : KBState K)
    (query : String) (k : ℤ) (lang_hint : Option String) :
    (tokenize query lang_hint = [] → KnowledgeBase.searchReady st query k lang_hint = []) ∧
    KnowledgeBase.searchReady st query k lang_hint =
      (KnowledgeBase.searchIndexed st (tokenize query lang_hint) k).map
        (fun p => (st.chunks.getD p.1 default, p.2)) ∧
    (∀ p ∈ KnowledgeBase.searchIndexed st (tokenize query lang_hint) k,
      0 < p.2 ∧ p.1 < st.chunks.length) ∧
    (KnowledgeBase.searchIndexed st (tokenize query lang_hint) k).Pairwise
      (fun a b => b.2 < a.2 ∨ (a.2 = b.2 ∧ a.1 < b.1)) ∧
    ((KnowledgeBase.searchReady st query k lang_hint).length : ℤ) ≤
      max 1 (min k (st.chunks.length : ℤ)) := by
  have hmem : ∀ p ∈ KnowledgeBase.searchIndexed st (tokenize query lang_hint) k,
      0 < p.2 ∧ p.1 < st.chunks.length := by
    intro p hp
    unfold KnowledgeBase.searchIndexed at hp
    have hp' := List.take_subset _ _ hp
    exact scoresList_mem ((List.perm_insertionSort pairLE _).subset hp')
  have hmap : KnowledgeBase.searchReady st query k lang_hint =
      (KnowledgeBase.searchIndexed st (tokenize query lang_hint) k).map
        (fun p => (st.chunks.getD p.1 default, p.2)) := by
    unfold KnowledgeBase.searchReady
    dsimp only
    by_cases hq : tokenize query lang_hint = []
    · rw [if_pos hq, hq]
      unfold KnowledgeBase.searchIndexed
      rw [scoresList_nil]
      simp
    · rw [if_neg hq]
  refine ⟨fun hq => by simp [KnowledgeBase.searchReady, hq], hmap, hmem, ?_, ?_⟩
  · unfold KnowledgeBase.searchIndexed
    apply List.Pairwise.sublist (List.take_sublist _ _)
    have hsorted := List.sorted_insertionSort pairLE (KnowledgeBase.scoresList st (tokenize query lang_hint))
    have hperm := List.perm_insertionSort pairLE (KnowledgeBase.scoresList st (tokenize query lang_hint))
    have hsym : Symmetric (fun a b : Nat × K => a.1 ≠ b.1) := fun a b h => Ne.symm h
    have hne := (List.Perm.pairwise_iff (R := fun a b : Nat × K => a.1 ≠ b.1) @hsym hperm).mpr
      (scoresList_pairwise_fst st (tokenize query lang_hint))
    refine (hsorted.and hne).imp ?_
    rintro a b ⟨hle, hne'⟩
    rcases hle with hlt | ⟨heq, hle'⟩
    · exact .inl hlt
    · exact .inr ⟨heq, lt_of_le_of_ne hle' hne'⟩
  · rw [hmap, List.length_map]
    have h1 : (KnowledgeBase.searchIndexed st (tokenize query lang_hint) k).length ≤
        (max 1 k).toNat := by
      unfold KnowledgeBase.searchIndexed
      rw [List.length_take]
      omega
    have h2 : (KnowledgeBase.searchIndexed st (tokenize query lang_hint) k).length ≤
        st.chunks.length := by
      unfold KnowledgeBase.searchIndexed
      rw [List.length_take]
      have h3 := (List.perm_insertionSort pairLE
        (KnowledgeBase.scoresList st (tokenize query lang_hint))).length_eq
      have h4 : (KnowledgeBase.scoresList st (tokenize query lang_hint)).length ≤
          st.chunks.length := by
        unfold KnowledgeBase.scoresList
        calc _ ≤ (st.chunks.enum.map (fun p =>
                (p.1, KnowledgeBase.bm25_score st.idf st.avgdl (tokenize query lang_hint) p.2))).length :=
              List.length_filter_le _ _
          _ = st.chunks.length := by rw [List.length_map, List.enum_length]
      omega
    omega

/-- Witness for C1 at a concrete two-chunk state and query. -/
theorem C1_search_results_witness :
    KnowledgeBase.searchReady (K := ℚ) stW "hello world" 4 none =
      (KnowledgeBase.searchIndexed (K := ℚ) stW (tokenize "hello world" none) 4).map
        (fun p => (stW.chunks.getD p.1 default, p.2)) ∧
    (KnowledgeBase.searchIndexed (K := ℚ) stW (tokenize "hello world" none) 4).Pairwise
      (fun a b => b.2 < a.2 ∨ (a.2 = b.2 ∧ a.1 < b.1)) ∧
    ((KnowledgeBase.searchReady (K := ℚ) stW "hello world" 4 none).length : ℤ) ≤
      max 1 (min 4 (stW.chunks.length : ℤ)) := by
  have h := C1_search_results (K := ℚ) stW "hello world" 4 none
  exact ⟨h.2.1, h.2.2.2.1, h.2.2.2.2⟩

/-! ## Dictionary lemmas and the document-frequency invariant -/

theorem dictLookup_incr (d : List (String × Nat)) (k t : String) :
    dictLookup (dictIncr d k) t =
      if t = k then some (dictGet d k + 1) else dictLookup d t := by
  induction d with
  | nil =>
    by_cases h : t = k
    · subst h; simp [dictIncr, dictLookup, dictGet]
    · have h' : ¬k = t := fun hh => h hh.symm
      simp [dictIncr, dictLookup, dictGet, h, h']
  | cons hd tl ih =>
    obtain ⟨k', v⟩ := hd
    by_cases h1 : k' = k
    · subst h1
      by_cases h2 : k' = t
      · subst h2
        simp [dictIncr, dictLookup, dictGet]
      · have h2' : ¬t = k' := fun hh => h2 hh.symm
        simp [dictIncr, dictLookup, dictGet, h2, h2']
    · by_cases h2 : k' = t
      · subst h2
        have h1' : ¬k' = k := h1
        simp [dictIncr, dictLookup, dictGet, h1, fun hh : k' = k => h1 hh]
      · simp [dictIncr, dictLookup, dictGet, h1, h2, ih]

theorem dictGet_incr (d : List (String × Nat)) (k t : String) :
    dictGet (dictIncr d k) t = dictGet d t + if t = k then 1 else 0 := by
  unfold dictGet
  rw [dictLookup_incr]
  by_cases h : t = k
  · subst h; simp [dictGet]
  · simp [h]

theorem dictLookup_incr_isSome (d : List (String × Nat)) (k t : String) :
    (dictLookup (dictIncr d k) t).isSome ↔ (dictLookup d t).isSome ∨ t = k := by
  rw [dictLookup_incr]
  by_cases h : t = k <;> simp [h]

theorem dictGet_foldIncr (l : List String) (hl : l.Nodup) (d : List (String × Nat)) (t : String) :
    dictGet (l.foldl dictIncr d) t = dictGet d t + if t ∈ l then 1 else 0 := by
  induction l generalizing d with
  | nil => simp
  | cons a as ih =>
    simp only [List.foldl_cons]
    rw [ih (List.nodup_cons.mp hl).2 (dictIncr d a), dictGet_incr]
    by_cases h : t = a
    · subst h
      have hna : t ∉ as := (List.nodup_cons.mp hl).1
      simp [hna]
    · simp [h, List.mem_cons]

theorem dictLookup_foldIncr_isSome (l : List String) (d : List (String × Nat)) (t : String) :
    (dictLookup (l.foldl dictIncr d) t).isSome ↔ (dictLookup d t).isSome ∨ t ∈ l := by
  induction l generalizing d with
  | nil => simp
  | cons a as ih =>
    simp only [List.foldl_cons]
    rw [ih (dictIncr d a), dictLookup_incr_isSome]
    constructor
    · rintro ((h | h) | h)
      · exact .inl h
      · exact .inr (by simp [h])
      · exact .inr (by simp [h])
    · rintro (h | h)
      · exact .inl (.inl h)
      · rcases List.mem_cons.mp h with h' | h'
        · exact .inl (.inr h')
        · exact .inr h'

theorem countC_append_singleton (cs : List KBChunk) (c : KBChunk) (t : String) :
    countC (cs ++ [c]) t = countC cs t + if t ∈ c.tokens then 1 else 0 := by
  unfold countC
  rw [List.filter_append, List.length_append]
  congr 1
  by_cases h : t ∈ c.tokens <;> simp [h]

theorem DfInv_init : DfInv ([], []) := by
  refine ⟨fun t => rfl, fun t => by simp [dictLookup, countC], fun c hc => absurd hc (by simp)⟩

theorem DfInv_indexStep (lang : String)
    (mk : Nat → String → List String → List (String × Nat) → KBChunk)
    (hmk : ∀ idx ch toks tf, (mk idx ch toks tf).tokens = toks)
    (st : List KBChunk × List (String × Nat)) (h : DfInv st) (item : Nat × String) :
    DfInv (indexStep lang mk st item) := by
  obtain ⟨chunks, df⟩ := st
  obtain ⟨idx, ch⟩ := item
  obtain ⟨hget, hsome, hne⟩ := h
  unfold indexStep
  dsimp only
  by_cases htoks : tokenize ch (some lang) = []
  · rw [if_pos htoks]
    exact ⟨hget, hsome, hne⟩
  · rw [if_neg htoks]
    refine ⟨fun t => ?_, fun t => ?_, fun c hc => ?_⟩
    · rw [dictGet_foldIncr _ (List.nodup_dedup _) df t, hget t,
        countC_append_singleton, hmk]
      simp [List.mem_dedup]
    · rw [dictLookup_foldIncr_isSome, hsome t, countC_append_singleton, hmk]
      simp only [List.mem_dedup]
      by_cases hm : t ∈ tokenize ch (some lang) <;> simp [hm]
    · rcases List.mem_append.mp hc with h' | h'
      · exact hne c h'
      · rw [List.mem_singleton.mp h', hmk]
        exact htoks

theorem DfInv_foldl_indexStep (lang : String)
    (mk : Nat → String → List String → List (String × Nat) → KBChunk)
    (hmk : ∀ idx ch toks tf, (mk idx ch toks tf).tokens = toks)
    (l : List (Nat × String)) (st : List KBChunk × List (String × Nat)) (h : DfInv st) :
    DfInv (l.foldl (indexStep lang mk) st) := by
  induction l generalizing st with
  | nil => exact h
  | cons a as ih => exact ih _ (DfInv_indexStep lang mk hmk st h a)

theorem DfInv_loadMdFile (st : List KBChunk × List (String × Nat)) (h : DfInv st)
    (fp : MdFile) : DfInv (loadMdFile st fp) := by
  unfold loadMdFile
  dsimp only
  split
  · exact h
  · exact DfInv_foldl_indexStep _ _ (fun _ _ _ _ => rfl) _ st h

theorem DfInv_mdFold (files : List MdFile) (st : List KBChunk × List (String × Nat))
    (h : DfInv st) : DfInv (files.foldl loadMdFile st) := by
  induction files generalizing st with
  | nil => exact h
  | cons f fs ih => exact ih _ (DfInv_loadMdFile st h f)

theorem exceptFold_preserve {σ α : Type} (P : σ → Prop) (f : σ → α → Except Unit σ)
    (hf : ∀ s a s', f s a = .ok s' → P s → P s') :
    ∀ (l : List α) (s s' : σ), l.foldlM f s = .ok s' → P s → P s'
  | [], s, s', h, hp => by
    have h' : s = s' := by
      simpa [List.foldlM_nil, pure, Except.pure] using h
    subst h'
    exact hp
  | a :: l, s, s', h, hp => by
    rw [List.foldlM_cons] at h
    rcases ha : f s a with e | s₁
    · rw [ha] at h; cases h
    · rw [ha] at h
      exact exceptFold_preserve P f hf l s₁ s' h (hf s a s₁ ha hp)

theorem DfInv_loadPackLine (jp : String → Option PyJson) (stem : String)
    (st : List KBChunk × List (String × Nat)) (item : Nat × List Char)
    (st' : List KBChunk × List (String × Nat))
    (h : loadPackLine jp stem st item = .ok st') (hp : DfInv st) : DfInv st' := by
  obtain ⟨line_no, rawLine⟩ := item
  unfold loadPackLine at h
  dsimp only at h
  by_cases h1 : pyStrip rawLine = []
  · rw [if_pos h1] at h
    cases h
    exact hp
  · rw [if_neg h1] at h
    rcases hjp : jp (String.mk (pyStrip rawLine)) with _ | j
    · rw [hjp] at h; cases h; exact hp
    · rw [hjp] at h
      cases j with
      | jother => cases h
      | jdict jtext jlang jtitle =>
        dsimp only at h
        by_cases h2 : String.mk (pyStrip (jtext.getD "").data) = ""
        · rw [if_pos h2] at h; cases h; exact hp
        · rw [if_neg h2] at h
          simp only [Except.ok.injEq] at h
          rw [← h]
          exact DfInv_foldl_indexStep _ _ (fun _ _ _ _ => rfl) _ st hp

theorem DfInv_loadPackFile (jp : String → Option PyJson)
    (st : List KBChunk × List (String × Nat)) (fp : PackFile)
    (st' : List KBChunk × List (String × Nat))
    (h : loadPackFile jp st fp = .ok st') (hp : DfInv st) : DfInv st' := by
  unfold loadPackFile at h
  rcases hr : fp.read with _ | raw
  · rw [hr] at h; cases h; exact hp
  · rw [hr] at h
    exact exceptFold_preserve DfInv _ (DfInv_loadPackLine jp fp.stem) _ st st' h hp

theorem DfInv_loadChunksDf (jp : String → Option PyJson) (cfg : KBConfig)
    (chunks : List KBChunk) (df : List (String × Nat))
    (h : loadChunksDf jp cfg = .ok (chunks, df)) : DfInv (chunks, df) := by
  unfold loadChunksDf at h
  have h0 : DfInv (cfg.mdFiles.foldl loadMdFile ([], [])) :=
    DfInv_mdFold cfg.mdFiles ([], []) DfInv_init
  rcases hpk : cfg.packs with _ | packFiles
  · rw [hpk] at h
    simp only [Except.ok.injEq] at h
    exact h ▸ h0
  · rw [hpk] at h
    exact exceptFold_preserve DfInv _
      (fun s a s' hs hp => DfInv_loadPackFile jp s a s' hs hp) packFiles _ _ h h0

/-! ## C4: the document-frequency table after a load -/

theorem load_ok_dest {K : Type} [LinearOrderedField K] {log : ℚ → K}
    {jp : String → Option PyJson} {cfg : KBConfig} {st : KBState K}
    (h : KnowledgeBase.load log jp cfg = .ok st) :
    loadChunksDf jp cfg = .ok (st.chunks, st.df) ∧
    st.idf = mkIdf log (max 1 st.chunks.length) st.df ∧
    st.avgdl = max 1 ((((st.chunks.map (fun c => c.tokens.length)).sum : ℕ) : ℚ) /
      ((max 1 st.chunks.length : ℕ) : ℚ)) ∧
    st.isReady = true := by
  unfold KnowledgeBase.load at h
  rcases hc : loadChunksDf jp cfg with e | p
  · rw [hc] at h; cases h
  · obtain ⟨chunks, df⟩ := p
    rw [hc] at h
    simp only [Except.ok.injEq] at h
    subst h
    exact ⟨rfl, rfl, rfl, rfl⟩

/-- **C4**. After every successful load, the document-frequency table maps
every term to the number of chunks whose token sequence contains it at least
once (multiplicity within one chunk does not inflate it), and it contains
exactly the terms occurring in the loaded chunks — so after any reload, a
term of no current chunk is absent from the table (no stale terms). -/
theorem C4_df_counts_documents {K : Type} [LinearOrderedField K] (log : ℚ → K)
    (jp : String → Option PyJson) (cfg : KBConfig) (st : KBState K)
    (h : KnowledgeBase.load log jp cfg = .ok st) :
    ∀ t : String,
      dictGet st.df t = (st.chunks.filter (fun c => t ∈ c.tokens)).length ∧
      ((dictLookup st.df t).isSome ↔ ∃ c ∈ st.chunks, t ∈ c.tokens) := by
  obtain ⟨hc, -, -, -⟩ := load_ok_dest h
  obtain ⟨hget, hsome, -⟩ := DfInv_loadChunksDf jp cfg st.chunks st.df hc
  intro t
  refine ⟨hget t, (hsome t).trans ?_⟩
  unfold countC
  rw [List.length_pos, ne_eq, List.filter_eq_nil_iff]
  simp

/-- Witness for C4: the one-document corpus `cfgA`. -/
theorem C4_df_counts_documents_witness :
    dictGet stA.df "aaaa" = (stA.chunks.filter (fun c => "aaaa" ∈ c.tokens)).length ∧
    ((dictLookup stA.df "aaaa").isSome ↔ ∃ c ∈ stA.chunks, "aaaa" ∈ c.tokens) :=
  C4_df_counts_documents (K := ℚ) zeroLog jpNone cfgA stA (by rfl) "aaaa"

/-! ## C5: avgdl is clamped below by 1, contrary to the claim at zero chunks -/

theorem chunks_length_le_sum (chunks : List KBChunk) (h : ∀ c ∈ chunks, c.tokens ≠ []) :
    chunks.length ≤ (chunks.map (fun c => c.tokens.length)).sum := by
  induction chunks with
  | nil => simp
  | cons c cs ih =>
    simp only [List.length_cons, List.map_cons, List.sum_cons]
    have h1 : 1 ≤ c.tokens.length :=
      List.length_pos.mpr (h c (List.mem_cons_self c cs))
    have h2 := ih (fun x hx => h x (List.mem_cons_of_mem c hx))
    omega

/-- **C5 corrected**. The code computes
`avgdl = max(1.0, total_len / max(1, chunk_count))`, not the claimed plain
quotient: on a load with at least one chunk the two agree (each indexed
chunk has at least one token, so the quotient is already ≥ 1), but a load
with zero chunks sets `avgdl = 1.0`, not the claimed quotient `0`. -/
theorem C5_avgdl_clamped {K : Type} [LinearOrderedField K] (log : ℚ → K)
    (jp : String → Option PyJson) (cfg : KBConfig) (st : KBState K)
    (h : KnowledgeBase.load log jp cfg = .ok st) :
    st.avgdl = max 1 ((((st.chunks.map (fun c => c.tokens.length)).sum : ℕ) : ℚ) /
      ((max 1 st.chunks.length : ℕ) : ℚ)) ∧
    (st.chunks ≠ [] →
      st.avgdl = (((st.chunks.map (fun c => c.tokens.length)).sum : ℕ) : ℚ) /
        (st.chunks.length : ℚ)) ∧
    (st.chunks = [] → st.avgdl = 1) := by
  obtain ⟨hc, -, havg, -⟩ := load_ok_dest h
  obtain ⟨-, -, hne⟩ := DfInv_loadChunksDf jp cfg st.chunks st.df hc
  refine ⟨havg, fun hnil => ?_, fun hnil => ?_⟩
  · have hlen : 0 < st.chunks.length := List.length_pos.mpr hnil
    have hmax : max 1 st.chunks.length = st.chunks.length := by omega
    rw [havg, hmax]
    have hsum := chunks_length_le_sum st.chunks hne
    have h1 : (1 : ℚ) ≤ (((st.chunks.map (fun c => c.tokens.length)).sum : ℕ) : ℚ) /
        (st.chunks.length : ℚ) := by
      rw [le_div_iff (by exact_mod_cast hlen)]
      rw [one_mul]
      exact_mod_cast hsum
    exact max_eq_right h1
  · rw [havg, hnil]
    norm_num

/-- Witness for C5 (amended claim) at the one-document corpus `cfgA`. -/
theorem C5_avgdl_clamped_witness :
    stA.avgdl = max 1 ((((stA.chunks.map (fun c => c.tokens.length)).sum : ℕ) : ℚ) /
      ((max 1 stA.chunks.length : ℕ) : ℚ)) ∧
    (stA.chunks ≠ [] →
      stA.avgdl = (((stA.chunks.map (fun c => c.tokens.length)).sum : ℕ) : ℚ) /
        (stA.chunks.length : ℚ)) ∧
    (stA.chunks = [] → stA.avgdl = 1) :=
  C5_avgdl_clamped (K := ℚ) zeroLog jpNone cfgA stA (by rfl)

/-- Counterexample to C5 as stated: a load that yields zero chunks has
`avgdl = 1`, while the claim says `avgdl` equals the quotient, which is `0`
there. -/
theorem C5_counterexample_zero_chunks :
    KnowledgeBase.load (K := ℚ) zeroLog jpNone ⟨[], none⟩ = .ok ⟨[], [], [], 1, true⟩ ∧
    (((([] : List KBChunk).map (fun c => c.tokens.length)).sum : ℕ) : ℚ) /
      ((max 1 ([] : List KBChunk).length : ℕ) : ℚ) = 0 ∧
    (1 : ℚ) ≠ 0 := by
  refine ⟨by rfl, by norm_num, by norm_num⟩

/-! ## C3: the idf formula and its sign -/

theorem dictLookup_mkIdf {K : Type} (log : ℚ → K) (n : Nat) (df : List (String × Nat))
    (t : String) :
    dictLookup (mkIdf log n df) t =
      (dictLookup df t).map
        (fun dv : Nat => log (1 + ((n : ℚ) - (dv : ℚ) + 1/2) / ((dv : ℚ) + 1/2))) := by
  induction df with
  | nil => rfl
  | cons hd tl ih =>
    obtain ⟨k, v⟩ := hd
    by_cases h : k = t <;> simp [mkIdf, dictLookup, h] <;> simpa [mkIdf] using ih

theorem idf_arg_gt_one (N d : Nat) (h1 : 1 ≤ d) (h2 : d ≤ N) :
    (1 : ℝ) < 1 + ((N : ℝ) - (d : ℝ) + 1/2) / ((d : ℝ) + 1/2) := by
  have hdN : (d : ℝ) ≤ (N : ℝ) := by exact_mod_cast h2
  have hnum : (0 : ℝ) < (N : ℝ) - (d : ℝ) + 1/2 := by linarith
  have hden : (0 : ℝ) < (d : ℝ) + 1/2 := by positivity
  have := div_pos hnum hden
  linarith

/-- Bounds on a document frequency recorded by a successful load:
`1 ≤ df[t] ≤ number of chunks` (so the chunk list is nonempty). -/
theorem df_bounds (jp : String → Option PyJson) (cfg : KBConfig)
    (chunks : List KBChunk) (df : List (String × Nat)) (t : String) (d : Nat)
    (h1 : loadChunksDf jp cfg = .ok (chunks, df))
    (h2 : dictLookup df t = some d) :
    1 ≤ d ∧ d ≤ chunks.length := by
  obtain ⟨hget, hsome, -⟩ := DfInv_loadChunksDf jp cfg chunks df h1
  have hisSome : (dictLookup df t).isSome := by rw [h2]; rfl
  have hpos : 0 < countC chunks t := (hsome t).mp hisSome
  have hd : d = countC chunks t := by
    have hg := hget t
    unfold dictGet at hg
    rw [h2] at hg
    simpa using hg
  have hle : countC chunks t ≤ chunks.length := List.length_filter_le _ _
  omega

/-- **C3 amended**. After every successful load, every term `t` recorded in
the document-frequency table has
`idf[t] = ln(1 + (N - df[t] + 0.5) / (df[t] + 0.5))` with `N` the total
chunk count; since `1 ≤ df[t] ≤ N` always holds, the argument of the
logarithm exceeds 1 and the idf value is **strictly positive** for every
term of every corpus — the `1 +` inside this smoothed variant prevents the
near-zero-or-negative values of the classical BM25 idf. -/
theorem C3_idf_formula_positive (jp : String → Option PyJson) (cfg : KBConfig)
    (chunks : List KBChunk) (df : List (String × Nat)) (t : String) (d : Nat)
    (h1 : loadChunksDf jp cfg = .ok (chunks, df))
    (h2 : dictLookup df t = some d) :
    ∃ st : KBState ℝ,
      KnowledgeBase.load (fun q => Real.log (q : ℝ)) jp cfg = .ok st ∧
      st.chunks = chunks ∧ st.df = df ∧
      dictLookup st.idf t =
        some (Real.log (1 + ((chunks.length : ℝ) - (d : ℝ) + 1/2) / ((d : ℝ) + 1/2))) ∧
      0 < Real.log (1 + ((chunks.length : ℝ) - (d : ℝ) + 1/2) / ((d : ℝ) + 1/2)) := by
  obtain ⟨hd1, hdN⟩ := df_bounds jp cfg chunks df t d h1 h2
  have hlen : 0 < chunks.length := lt_of_lt_of_le hd1 hdN
  have hmax : max 1 chunks.length = chunks.length := by omega
  have hlog : 0 < Real.log (1 + ((chunks.length : ℝ) - (d : ℝ) + 1/2) / ((d : ℝ) + 1/2)) :=
    Real.log_pos (idf_arg_gt_one chunks.length d hd1 hdN)
  refine ⟨⟨chunks, df,
    mkIdf (fun q => Real.log (q : ℝ)) (max 1 chunks.length) df,
    max 1 ((((chunks.map (fun c => c.tokens.length)).sum : ℕ) : ℚ) /
      ((max 1 chunks.length : ℕ) : ℚ)), true⟩, ?_, rfl, rfl, ?_, hlog⟩
  · unfold KnowledgeBase.load
    rw [h1]
  · rw [dictLookup_mkIdf, h2, hmax]
    simp only [Option.map_some']
    congr 1
    rw [show ((1 + ((chunks.length : ℚ) - (d : ℚ) + 1/2) / ((d : ℚ) + 1/2) : ℚ) : ℝ) =
        (1 + ((chunks.length : ℝ) - (d : ℝ) + 1/2) / ((d : ℝ) + 1/2)) by push_cast; ring]

/-- Witness for the amended C3 at the one-document corpus `cfgA`. -/
theorem C3_idf_formula_positive_witness :
    ∃ st : KBState ℝ,
      KnowledgeBase.load (fun q => Real.log (q : ℝ)) jpNone cfgA = .ok st ∧
      st.chunks = [chunkA] ∧ st.df = [("aaaa", 1)] ∧
      dictLookup st.idf "aaaa" =
        some (Real.log (1 + (([chunkA].length : ℝ) - ((1 : ℕ) : ℝ) + 1/2) / (((1 : ℕ) : ℝ) + 1/2))) ∧
      0 < Real.log (1 + (([chunkA].length : ℝ) - ((1 : ℕ) : ℝ) + 1/2) / (((1 : ℕ) : ℝ) + 1/2)) :=
  C3_idf_formula_positive jpNone cfgA [chunkA] [("aaaa", 1)] "aaaa" 1 (by rfl) (by rfl)

/-- Counterexample to C3 as stated: no load of this code ever produces a
negative idf entry, refuting "for some corpus some term's idf is negative". -/
theorem C3_no_negative_idf :
    ¬ ∃ (jp : String → Option PyJson) (cfg : KBConfig) (st : KBState ℝ)
        (t : String) (v : ℝ),
        KnowledgeBase.load (fun q => Real.log (q : ℝ)) jp cfg = .ok st ∧
        dictLookup st.idf t = some v ∧ v < 0 := by
  rintro ⟨jp, cfg, st, t, v, hload, hlook, hneg⟩
  obtain ⟨hc, hidf, -, -⟩ := load_ok_dest hload
  rw [hidf, dictLookup_mkIdf] at hlook
  rcases hd : dictLookup st.df t with _ | d
  · rw [hd] at hlook; cases hlook
  · rw [hd] at hlook
    simp only [Option.map_some', Option.some.injEq] at hlook
    obtain ⟨hd1, hdN⟩ := df_bounds jp cfg st.chunks st.df t d hc hd
    have hdN' : d ≤ max 1 st.chunks.length := le_trans hdN (Nat.le_max_right _ _)
    have harg : (1 : ℝ) <
        ((1 + (((max 1 st.chunks.length : ℕ) : ℚ) - (d : ℚ) + 1/2) / ((d : ℚ) + 1/2) : ℚ) : ℝ) := by
      rw [show ((1 + (((max 1 st.chunks.length : ℕ) : ℚ) - (d : ℚ) + 1/2) / ((d : ℚ) + 1/2) : ℚ) : ℝ) =
          (1 + (((max 1 st.chunks.length : ℕ) : ℝ) - (d : ℝ) + 1/2) / ((d : ℝ) + 1/2)) by push_cast; ring]
      exact idf_arg_gt_one _ d hd1 hdN'
    have hpos : 0 < v := by
      rw [← hlook]
      exact Real.log_pos harg
    linarith

/-! ## C6: the Latin tokenizer path -/

theorem latinFilterStem_eq (sw : List String) (l : List String) :
    latinFilterStem sw l =
      ((l.filter (fun w => 1 < w.length)).filter (fun w => w ∉ sw)).map lightStem := by
  induction l with
  | nil => rfl
  | cons w ws ih =>
    by_cases h1 : w.length ≤ 1
    · have h1' : ¬1 < w.length := by omega
      simp [latinFilterStem, h1, h1', ih]
    · have h1' : 1 < w.length := by omega
      by_cases h2 : w ∈ sw
      · simp [latinFilterStem, h1, h1', h2, ih]
      · simp [latinFilterStem, h1, h1', h2, ih]

/-- **C6**. On the Latin path (hint not zh/ja and no kana/CJK characters in
the stripped text), `tokenize` is exactly: maximal runs of Latin
letters/digits/apostrophes over the lowercased text, drop tokens of length
≤ 1, drop the resolved language's stopwords (English when the hint is
unsupported), then apply the light suffix stemmer.  In particular
`"Libraries and stories"` yields `"library"` and `"story"` and drops
`"and"`. -/
theorem C6_latin_tokenize :
    (∀ (text : String) (hint : Option String),
      ¬(normalize_lang hint = some "zh" ∨ normalize_lang hint = some "ja" ∨
        hasKana (pyStrip text.data) = true ∨ hasCJK (pyStrip text.data) = true) →
      tokenize text hint =
        ((((charRuns isLatinWordChar ((pyStrip text.data).map pyLower)).map String.mk).filter
            (fun w => 1 < w.length)).filter
          (fun w => w ∉ STOPWORDS_BY_LANG ((normalize_lang hint).getD "en"))).map lightStem) ∧
    "library" ∈ tokenize "Libraries and stories" (some "en") ∧
    "story" ∈ tokenize "Libraries and stories" (some "en") ∧
    "and" ∉ tokenize "Libraries and stories" (some "en") := by
  have heval : tokenize "Libraries and stories" (some "en") = ["library", "story"] := by rfl
  refine ⟨?_, ?_, ?_, ?_⟩
  · intro text hint hcond
    push_neg at hcond
    obtain ⟨h1, h2, h3, h4⟩ := hcond
    simp only [ne_eq, Bool.not_eq_true] at h3 h4
    unfold tokenize
    dsimp only
    by_cases ht : pyStrip text.data = []
    · rw [if_pos ht, ht]
      rfl
    · rw [if_neg ht]
      rw [if_neg (by simp [h1, h2, h3, h4])]
      by_cases hw : (charRuns isLatinWordChar ((pyStrip text.data).map pyLower)).map String.mk = []
      · rw [if_pos hw, hw]
        simp
      · rw [if_neg hw]
        exact latinFilterStem_eq _ _
  · rw [heval]; decide
  · rw [heval]; decide
  · rw [heval]; decide

/-- Witness for the universal part of C6 at a concrete Latin input. -/
theorem C6_latin_tokenize_witness :
    tokenize "cats" none =
      ((((charRuns isLatinWordChar ((pyStrip "cats".data).map pyLower)).map String.mk).filter
          (fun w => 1 < w.length)).filter
        (fun w => w ∉ STOPWORDS_BY_LANG ((normalize_lang none).getD "en"))).map lightStem :=
  C6_latin_tokenize.1 "cats" none (by decide)

/-! ## C7: the ideographic tokenizer path -/

theorem cjkBigrams_eq_zip : ∀ chars : List Char,
    cjkBigrams chars = (chars.zip chars.tail).map (fun p => String.mk [p.1, p.2])
  | [] => rfl
  | [_] => rfl
  | c1 :: c2 :: rest => by
    have ih := cjkBigrams_eq_zip (c2 :: rest)
    unfold cjkBigrams at ih ⊢
    simp only [List.length_cons, List.tail_cons, List.zip_cons_cons, List.map_cons]
    rw [show rest.length + 1 + 1 - 1 = (rest.length + 1 - 1) + 1 from rfl,
      List.range_succ_eq_map, List.map_cons, List.map_map]
    congr 1

theorem not_ws_of_cjk (c : Char) (h : isCJK c = true) : isPyWs c = false := by
  unfold isCJK at h
  unfold isPyWs
  simp only [Bool.and_eq_true, decide_eq_true_eq] at h
  simp only [Bool.or_eq_false_iff, decide_eq_false_iff_not]
  omega

/-- **C7**. On the ideographic path (hint zh/ja, or kana/CJK present in the
stripped text), `tokenize` keeps exactly the kana/CJK characters; with fewer
than 2 such characters it returns them as singleton tokens, otherwise it
returns all adjacent bigrams (sliding window of 2, stride 1) followed by the
characters at indices 0, 3, 6, … as unigrams.  In particular any 4-character
CJK string yields its first 2-character bigram as a token. -/
theorem C7_ideographic_tokenize :
    (∀ (text : String) (hint : Option String),
      (normalize_lang hint = some "zh" ∨ normalize_lang hint = some "ja" ∨
        hasKana (pyStrip text.data) = true ∨ hasCJK (pyStrip text.data) = true) →
      tokenize text hint =
        (if ((pyStrip text.data).filter isIdeo).length < 2 then
          ((pyStrip text.data).filter isIdeo).map (fun c => String.mk [c])
        else
          ((((pyStrip text.data).filter isIdeo).zip
              ((pyStrip text.data).filter isIdeo).tail).map
            (fun p => String.mk [p.1, p.2])) ++
          (everyThird ((pyStrip text.data).filter isIdeo)).map (fun c => String.mk [c]))) ∧
    (∀ c1 c2 c3 c4 : Char,
      isCJK c1 = true → isCJK c2 = true → isCJK c3 = true → isCJK c4 = true →
      String.mk [c1, c2] ∈ tokenize (String.mk [c1, c2, c3, c4]) none ∧
      (String.mk [c1, c2]).length = 2) := by
  constructor
  · intro text hint hcond
    unfold tokenize
    dsimp only
    by_cases ht : pyStrip text.data = []
    · rw [if_pos ht, ht]
      simp
    · rw [if_neg ht]
      have hcond' : (normalize_lang hint = some "zh" || normalize_lang hint = some "ja" ||
          hasKana (pyStrip text.data) || hasCJK (pyStrip text.data)) = true := by
        rcases hcond with h | h | h | h <;> simp [h]
      rw [if_pos hcond']
      by_cases hlen : ((pyStrip text.data).filter isIdeo).length < 2
      · rw [if_pos hlen, if_pos hlen]
      · rw [if_neg hlen, if_neg hlen, cjkBigrams_eq_zip]
  · intro c1 c2 c3 c4 h1 h2 h3 h4
    have hw1 := not_ws_of_cjk c1 h1
    have hw4 := not_ws_of_cjk c4 h4
    have hstrip : pyStrip [c1, c2, c3, c4] = [c1, c2, c3, c4] := by
      unfold pyStrip
      rw [List.dropWhile_cons_of_neg (by simp [hw1])]
      simp only [List.reverse_cons, List.reverse_nil, List.nil_append, List.cons_append]
      rw [List.dropWhile_cons_of_neg (by simp [hw4])]
      simp
    have hideo : ∀ c : Char, isCJK c = true → isIdeo c = true := by
      intro c h
      simp [isIdeo, h]
    have hfilter : ([c1, c2, c3, c4].filter isIdeo) = [c1, c2, c3, c4] := by
      simp [List.filter, hideo c1 h1, hideo c2 h2, hideo c3 h3, hideo c4 h4]
    have htok : tokenize (String.mk [c1, c2, c3, c4]) none =
        cjkBigrams [c1, c2, c3, c4] ++
          (everyThird [c1, c2, c3, c4]).map (fun c => String.mk [c]) := by
      unfold tokenize
      dsimp only
      rw [hstrip]
      rw [if_neg (by simp)]
      rw [if_pos (by simp [normalize_lang, hasCJK, h1])]
      rw [hfilter]
      rw [if_neg (by simp)]
    have hbig : cjkBigrams [c1, c2, c3, c4] =
        [String.mk [c1, c2], String.mk [c2, c3], String.mk [c3, c4]] := rfl
    refine ⟨?_, rfl⟩
    rw [htok, hbig]
    simp

/-- Witness for C7 at a concrete Japanese input (ideographic path taken via
the hint and via the characters themselves). -/
theorem C7_ideographic_tokenize_witness :
    tokenize "日本語" (some "ja") =
      (if ((pyStrip "日本語".data).filter isIdeo).length < 2 then
        ((pyStrip "日本語".data).filter isIdeo).map (fun c => String.mk [c])
      else
        ((((pyStrip "日本語".data).filter isIdeo).zip
            ((pyStrip "日本語".data).filter isIdeo).tail).map
          (fun p => String.mk [p.1, p.2])) ++
        (everyThird ((pyStrip "日本語".data).filter isIdeo)).map (fun c => String.mk [c])) :=
  C7_ideographic_tokenize.1 "日本語" (some "ja") (by decide)

/-! ## C8: chunk bound and whitespace normalization -/

theorem length_collapseWsAux_le (b : Bool) (l : List Char) :
    (collapseWsAux b l).length ≤ l.length := by
  induction l generalizing b with
  | nil => simp [collapseWsAux]
  | cons c cs ih =>
    unfold collapseWsAux
    by_cases h : isPyWs c
    · rw [if_pos h]
      by_cases hb : b
      · rw [if_pos hb]
        exact le_trans (ih true) (by simp)
      · rw [if_neg hb]
        simpa using ih true
    · rw [if_neg h]
      simpa using ih false

theorem pyStrip_sublist (l : List Char) : List.Sublist (pyStrip l) l := by
  unfold pyStrip
  have h1 : List.Sublist (l.dropWhile isPyWs) l := List.dropWhile_sublist _
  have h2 : List.Sublist ((l.dropWhile isPyWs).reverse.dropWhile isPyWs)
      (l.dropWhile isPyWs).reverse :=
    List.dropWhile_sublist _
  have h3 := h2.reverse
  rw [List.reverse_reverse] at h3
  exact h3.trans h1

theorem length_pyStrip_le (l : List Char) : (pyStrip l).length ≤ l.length :=
  (pyStrip_sublist l).length_le

theorem length_normalize_ws_le (l : List Char) : (normalize_ws l).length ≤ l.length :=
  le_trans (length_pyStrip_le _) (length_collapseWsAux_le false l)

theorem collapseWsAux_mem_ws (b : Bool) (l : List Char) :
    ∀ c ∈ collapseWsAux b l, isPyWs c = true → c = ' ' := by
  induction l generalizing b with
  | nil => simp [collapseWsAux]
  | cons c cs ih =>
    intro x hx hws
    unfold collapseWsAux at hx
    by_cases h : isPyWs c
    · rw [if_pos h] at hx
      by_cases hb : b
      · rw [if_pos hb] at hx
        exact ih true x hx hws
      · rw [if_neg hb] at hx
        rcases List.mem_cons.mp hx with h' | h'
        · exact h'
        · exact ih true x h' hws
    · rw [if_neg h] at hx
      rcases List.mem_cons.mp hx with h' | h'
      · rw [h'] at hws; exact absurd hws (by simp [h])
      · exact ih false x h' hws

theorem collapseWsAux_head_true (l : List Char) :
    ∀ h, (collapseWsAux true l).head? = some h → isPyWs h = false := by
  induction l with
  | nil => intro h hh; cases hh
  | cons c cs ih =>
    intro h hh
    unfold collapseWsAux at hh
    by_cases hc : isPyWs c
    · rw [if_pos hc, if_pos rfl] at hh
      exact ih h hh
    · rw [if_neg hc] at hh
      simp only [List.head?_cons, Option.some.injEq] at hh
      rw [← hh]
      exact Bool.not_eq_true _ ▸ hc

theorem collapseWsAux_chain (b : Bool) (l : List Char) :
    (collapseWsAux b l).Chain' (fun a b => ¬(isPyWs a = true ∧ isPyWs b = true)) := by
  induction l generalizing b with
  | nil => simp [collapseWsAux]
  | cons c cs ih =>
    unfold collapseWsAux
    by_cases h : isPyWs c
    · rw [if_pos h]
      by_cases hb : b
      · rw [if_pos hb]; exact ih true
      · rw [if_neg hb]
        rw [List.chain'_cons']
        refine ⟨fun y hy => ?_, ih true⟩
        intro ⟨_, hy2⟩
        have := collapseWsAux_head_true cs y hy
        rw [this] at hy2
        cases hy2
    · rw [if_neg h]
      rw [List.chain'_cons']
      refine ⟨fun y hy => ?_, ih false⟩
      intro ⟨h1, _⟩
      rw [h1] at h
      exact h rfl

theorem head_dropWhile {p : Char → Bool} :
    ∀ (l : List Char) (h : Char), (l.dropWhile p).head? = some h → p h = false := by
  intro l
  induction l with
  | nil => intro h hh; cases hh
  | cons c cs ih =>
    intro h hh
    by_cases hc : p c
    · rw [List.dropWhile_cons_of_pos hc] at hh
      exact ih h hh
    · rw [List.dropWhile_cons_of_neg hc] at hh
      simp only [List.head?_cons, Option.some.injEq] at hh
      rw [← hh]
      exact Bool.not_eq_true _ ▸ hc

theorem getLast?_of_suffix {l₁ l₂ : List Char} (h : List.IsSuffix l₁ l₂) (hne : l₁ ≠ []) :
    l₁.getLast? = l₂.getLast? := by
  obtain ⟨pre, rfl⟩ := h
  rw [List.getLast?_append]
  rcases hl : l₁.getLast? with _ | x
  · exact absurd (List.getLast?_eq_none_iff.mp hl) hne
  · rfl

theorem wsNormalized_pyStrip (l : List Char)
    (hmem : ∀ c ∈ l, isPyWs c = true → c = ' ')
    (hchain : l.Chain' (fun a b => ¬(isPyWs a = true ∧ isPyWs b = true))) :
    wsNormalized (pyStrip l) := by
  have hsub := pyStrip_sublist l
  refine ⟨fun c hc hws => hmem c (hsub.subset hc) hws, ?_, ?_, ?_⟩
  · -- the chain survives: pyStrip is a suffix, then (after reversing) again a
    -- suffix, of a list whose chain relation is symmetric
    have hc1 : (l.dropWhile isPyWs).Chain' (fun a b => ¬(isPyWs a = true ∧ isPyWs b = true)) :=
      hchain.suffix (List.dropWhile_suffix _)
    have hc2 : ((l.dropWhile isPyWs).reverse).Chain'
        (fun a b => ¬(isPyWs a = true ∧ isPyWs b = true)) := by
      rw [List.chain'_reverse]
      exact hc1.imp (fun a b hab => fun hp => hab ⟨hp.2, hp.1⟩)
    have hc3 : (((l.dropWhile isPyWs).reverse.dropWhile isPyWs)).Chain'
        (fun a b => ¬(isPyWs a = true ∧ isPyWs b = true)) :=
      hc2.suffix (List.dropWhile_suffix _)
    unfold pyStrip
    rw [List.chain'_reverse]
    exact hc3.imp (fun a b hab => fun hp => hab ⟨hp.2, hp.1⟩)
  · intro h hh
    unfold pyStrip at hh
    rw [List.head?_reverse] at hh
    rcases hY : (l.dropWhile isPyWs).reverse.dropWhile isPyWs with _ | ⟨y, ys⟩
    · rw [hY] at hh; cases hh
    · have hne : (l.dropWhile isPyWs).reverse.dropWhile isPyWs ≠ [] := by rw [hY]; simp
      have := getLast?_of_suffix (List.dropWhile_suffix isPyWs) hne
      rw [this, List.getLast?_reverse] at hh
      exact head_dropWhile _ _ hh
  · intro h hh
    unfold pyStrip at hh
    rw [List.getLast?_reverse] at hh
    exact head_dropWhile _ _ hh

/-- `normalize_ws` really normalizes: the result's whitespace is single
plain spaces with trimmed edges. -/
theorem wsNormalized_normalize_ws (l : List Char) : wsNormalized (normalize_ws l) :=
  wsNormalized_pyStrip (collapseWs l)
    (collapseWsAux_mem_ws false l) (collapseWsAux_chain false l)

theorem chunkStep_ok (maxChars : Nat) (S : List (List Char))
    (st : List (List Char) × List Char) (block : List Char) (hblock : block ∈ S)
    (h1 : ∀ x ∈ st.1, ChunkOk maxChars S x)
    (h2 : st.2 = [] ∨ ChunkOk maxChars S st.2) :
    (∀ x ∈ (chunkStep maxChars st block).1, ChunkOk maxChars S x) ∧
    ((chunkStep maxChars st block).2 = [] ∨
      ChunkOk maxChars S (chunkStep maxChars st block).2) := by
  obtain ⟨chunks, buf⟩ := st
  unfold chunkStep
  dsimp only at h1 h2 ⊢
  by_cases hb : pyStrip block = []
  · rw [if_pos hb]
    exact ⟨h1, h2⟩
  · rw [if_neg hb]
    by_cases hfit : buf.length + (pyStrip block).length + 2 ≤ maxChars
    · rw [if_pos hfit]
      refine ⟨h1, .inr (.inl ?_)⟩
      show (pyStrip (buf ++ ['\n', '\n'] ++ pyStrip block)).length ≤ maxChars
      have hle := length_pyStrip_le (buf ++ ['\n', '\n'] ++ pyStrip block)
      simp only [List.length_append, List.length_cons, List.length_nil] at hle
      omega
    · rw [if_neg hfit]
      have hQb : ChunkOk maxChars S (pyStrip block) := by
        by_cases hlb : (pyStrip block).length ≤ maxChars
        · exact .inl hlb
        · exact .inr ⟨block, hblock, rfl, by omega⟩
      by_cases hbuf : buf ≠ []
      · rw [if_pos hbuf]
        refine ⟨?_, .inr hQb⟩
        intro x hx
        rcases List.mem_append.mp hx with h' | h'
        · exact h1 x h'
        · rw [List.mem_singleton.mp h']
          rcases h2 with h2 | h2
          · exact absurd h2 hbuf
          · exact h2
      · rw [if_neg hbuf]
        exact ⟨h1, .inr hQb⟩

theorem chunkFold_ok (maxChars : Nat) (S : List (List Char)) :
    ∀ (l : List (List Char)), (∀ x ∈ l, x ∈ S) →
    ∀ (st : List (List Char) × List Char),
      (∀ x ∈ st.1, ChunkOk maxChars S x) →
      (st.2 = [] ∨ ChunkOk maxChars S st.2) →
      (∀ x ∈ (l.foldl (chunkStep maxChars) st).1, ChunkOk maxChars S x) ∧
      ((l.foldl (chunkStep maxChars) st).2 = [] ∨
        ChunkOk maxChars S (l.foldl (chunkStep maxChars) st).2) := by
  intro l
  induction l with
  | nil => intro _ st h1 h2; exact ⟨h1, h2⟩
  | cons b bs ih =>
    intro hl st h1 h2
    simp only [List.foldl_cons]
    obtain ⟨h1', h2'⟩ := chunkStep_ok maxChars S st b (hl b (List.mem_cons_self b bs)) h1 h2
    exact ih (fun x hx => hl x (List.mem_cons_of_mem b hx)) _ h1' h2'

/-- **C8**. Every chunk `chunk_text` returns either fits in `maxChars` or is
(the normalization of) a single trimmed source block that is itself longer
than `maxChars`; and every returned chunk is fully whitespace-normalized:
internal whitespace collapsed to single spaces and edges trimmed. -/
theorem C8_chunk_bound (text : String) (maxChars : Nat) :
    ∀ c ∈ chunk_text text maxChars,
      (c.length ≤ maxChars ∨
        ∃ block ∈ rawBlocks text, maxChars < (pyStrip block).length ∧
          c = String.mk (normalize_ws ((pyStrip block).map
            (fun ch => if ch = '\n' then ' ' else ch)))) ∧
      wsNormalized c.data := by
  intro c hc
  unfold chunk_text at hc
  dsimp only at hc
  obtain ⟨hchunks, hbuf⟩ := chunkFold_ok maxChars (rawBlocks text) (rawBlocks text)
    (fun x hx => hx) ([], []) (by simp) (.inl rfl)
  have hfinal : ∀ x ∈ (if ((rawBlocks text).foldl (chunkStep maxChars) ([], [])).2 ≠ [] then
      ((rawBlocks text).foldl (chunkStep maxChars) ([], [])).1 ++
        [((rawBlocks text).foldl (chunkStep maxChars) ([], [])).2]
    else ((rawBlocks text).foldl (chunkStep maxChars) ([], [])).1),
      ChunkOk maxChars (rawBlocks text) x := by
    intro x hx
    by_cases hne : ((rawBlocks text).foldl (chunkStep maxChars) ([], [])).2 ≠ []
    · rw [if_pos hne] at hx
      rcases List.mem_append.mp hx with h' | h'
      · exact hchunks x h'
      · rw [List.mem_singleton.mp h']
        rcases hbuf with h2 | h2
        · exact absurd h2 hne
        · exact h2
    · rw [if_neg hne] at hx
      exact hchunks x hx
  rcases List.mem_map.mp hc with ⟨x, hx, rfl⟩
  have hxQ : ChunkOk maxChars (rawBlocks text) x := hfinal x (List.mem_filter.mp hx).1
  constructor
  · rcases hxQ with hle | ⟨block, hbS, hpb, hgt⟩
    · left
      have h1 : (normalize_ws (x.map (fun ch => if ch = '\n' then ' ' else ch))).length ≤
          (x.map (fun ch => if ch = '\n' then ' ' else ch)).length :=
        length_normalize_ws_le _
      rw [List.length_map] at h1
      show (normalize_ws (x.map (fun ch => if ch = '\n' then ' ' else ch))).length ≤ maxChars
      omega
    · right
      refine ⟨block, hbS, by rw [hpb]; exact hgt, by rw [hpb]⟩
  · exact wsNormalized_normalize_ws _

/-- Witness for C8 at a concrete two-block input with one oversized block. -/
theorem C8_chunk_bound_witness :
    (("abcdefghij" : String).length ≤ 5 ∨
      ∃ block ∈ rawBlocks "abcdefghij\n\nxy", 5 < (pyStrip block).length ∧
        ("abcdefghij" : String) = String.mk (normalize_ws ((pyStrip block).map
          (fun ch => if ch = '\n' then ' ' else ch)))) ∧
    wsNormalized ("abcdefghij" : String).data :=
  C8_chunk_bound "abcdefghij\n\nxy" 5 "abcdefghij" (by decide)
